import Mathlib

/-!
Verification of the browser-automation agent driver (background service worker,
AI dispatcher and page-perception pipeline) against its specification.

The JavaScript source is shallowly embedded: each relevant source function is
translated to a computable Lean definition operating on `String` / `List Char`
(JS strings are modeled by their character lists; JS `split('\n')` is modeled by
an explicit character-level splitter so every definition evaluates by kernel
reduction).  Fallible code returns `Option` / `Except`; JS exceptions are the
`Except.error` case.  Absent (undefined) string fields are modeled as `""`,
matching the sources own `x || ''` guards at every use site.
-/

namespace ChromeController

/-! ## JS string primitives

Character-level models of the JavaScript string operations used by the source:
`includes`, `startsWith`, `trim`, `toLowerCase`, `split('\n')`, `Array.join('\n')`,
`substring`.  JS whitespace is modeled by the common ASCII whitespace characters.
-/

/-- Whitespace test used by the models of JS `trim()` and regex `\s`. -/
def isJsWs (c : Char) : Bool :=
  c = ' ' || c = '\t' || c = '\n' || c = '\r' || c = '\x0c' || c = '\x0b'

/-- Substring scan: does `pat` occur (contiguously) anywhere in `cs`? -/
def containsPat (pat : List Char) : List Char → Bool
  | [] => pat.isPrefixOf []
  | c :: cs => pat.isPrefixOf (c :: cs) || containsPat pat cs

/-- Model of JS `String.prototype.includes` (substring containment). -/
def jsIncludes (s pat : String) : Bool :=
  containsPat pat.data s.data

/-- Model of JS `String.prototype.startsWith`. -/
def jsStartsWith (s pat : String) : Bool :=
  pat.data.isPrefixOf s.data

/-- Character-list trim: drop whitespace from both ends. -/
def trimChars (cs : List Char) : List Char :=
  ((cs.dropWhile isJsWs).reverse.dropWhile isJsWs).reverse

/-- Model of JS `String.prototype.trim`. -/
def jsTrim (s : String) : String :=
  ⟨trimChars s.data⟩

/-- Model of JS `String.prototype.toLowerCase` (ASCII case folding). -/
def jsToLower (s : String) : String :=
  ⟨s.data.map Char.toLower⟩

/-- Model of JS `String.prototype.substring(start, stop)`. -/
def jsSubstring (s : String) (start stop : Nat) : String :=
  ⟨(s.data.take stop).drop start⟩

/-- Split a character list at every occurrence of `sep`, JS `split` semantics:
the empty list splits to `[[]]`. -/
def splitCharList (sep : Char) : List Char → List (List Char)
  | [] => [[]]
  | c :: cs =>
    if c = sep then [] :: splitCharList sep cs
    else
      match splitCharList sep cs with
      | [] => [[c]]
      | l :: ls => (c :: l) :: ls

/-- Model of JS `s.split('\n')`. -/
def toLines (s : String) : List String :=
  (splitCharList '\n' s.data).map fun l => ⟨l⟩

/-- Model of JS `Array.prototype.join('\n')`. -/
def joinNL : List String → String
  | [] => ""
  | [s] => s
  | s :: rest => s ++ "\n" ++ joinNL rest

/-! ## Quiz auto-detection (`detectQuizMode`, background.js)

`PageContext` carries the per-step perception bundle; only the fields the
detector reads are modeled.  A missing field is the empty string (the source
reads `pageContext.visualMap || ''` etc.).
-/

structure PageContext where
  url : String
  title : String
  visualMap : String
deriving DecidableEq

/-- Weighted indicator patterns of `detectQuizMode` (background.js). -/
def quizIndicators : List (String × Nat) :=
  [("lrn_assess", 3), ("mcq-input", 3), ("[radio]", 1), ("[checkbox]", 1),
   ("Quick Check", 2), ("Item ", 1), ("question", 1), ("[unchecked]", 1)]

/-- URL/title keywords of `detectQuizMode` (background.js). -/
def quizKeywords : List String :=
  ["quiz", "assessment", "test", "exam", "survey"]

/-- Embedding of `detectQuizMode(pageContext)` from background.js: sum the
weights of indicator patterns found in the visual map, add 2 for each keyword
found in the lower-cased URL or title, and compare against the threshold 4. -/
def detectQuizMode (ctx : PageContext) : Bool :=
  let map := ctx.visualMap
  let score1 : Nat := quizIndicators.foldl
    (fun s iw => if jsIncludes map iw.1 then s + iw.2 else s) 0
  let lowerUrl := jsToLower ctx.url
  let lowerTitle := jsToLower ctx.title
  let score := quizKeywords.foldl
    (fun s k => if jsIncludes lowerUrl k || jsIncludes lowerTitle k then s + 2 else s)
    score1
  decide (score ≥ 4)

/-- The weighted score exactly as the claim enumerates it: 3 for each of
`lrn_assess` and `mcq-input`, 1 for each of `[radio]`, `[checkbox]`, `Item `,
`question`, `[unchecked]`, 2 for `Quick Check`, and 2 for each of the five
keywords occurring in the lower-cased URL or title. -/
def quizScoreSpec (ctx : PageContext) : Nat :=
  (if jsIncludes ctx.visualMap "lrn_assess" then 3 else 0) +
  (if jsIncludes ctx.visualMap "mcq-input" then 3 else 0) +
  (if jsIncludes ctx.visualMap "[radio]" then 1 else 0) +
  (if jsIncludes ctx.visualMap "[checkbox]" then 1 else 0) +
  (if jsIncludes ctx.visualMap "Quick Check" then 2 else 0) +
  (if jsIncludes ctx.visualMap "Item " then 1 else 0) +
  (if jsIncludes ctx.visualMap "question" then 1 else 0) +
  (if jsIncludes ctx.visualMap "[unchecked]" then 1 else 0) +
  (if jsIncludes (jsToLower ctx.url) "quiz" || jsIncludes (jsToLower ctx.title) "quiz" then 2 else 0) +
  (if jsIncludes (jsToLower ctx.url) "assessment" || jsIncludes (jsToLower ctx.title) "assessment" then 2 else 0) +
  (if jsIncludes (jsToLower ctx.url) "test" || jsIncludes (jsToLower ctx.title) "test" then 2 else 0) +
  (if jsIncludes (jsToLower ctx.url) "exam" || jsIncludes (jsToLower ctx.title) "exam" then 2 else 0) +
  (if jsIncludes (jsToLower ctx.url) "survey" || jsIncludes (jsToLower ctx.title) "survey" then 2 else 0)

theorem ite_add_split (b : Bool) (s w : Nat) :
    (if b = true then s + w else s) = s + (if b = true then w else 0) := by
  cases b <;> simp

theorem detectQuizMode_eq_spec (ctx : PageContext) :
    detectQuizMode ctx = decide (quizScoreSpec ctx ≥ 4) := by
  unfold detectQuizMode quizScoreSpec
  simp only [quizIndicators, quizKeywords, List.foldl]
  simp only [ite_add_split]
  simp only [Nat.zero_add]

/-- C8: `detectQuizMode(pageContext)` returns true if and only if the weighted
score is at least 4, where the score adds 3 for each of `lrn_assess` and
`mcq-input` present in the visual map, 1 for each of `[radio]`, `[checkbox]`,
`Item `, `question` and `[unchecked]`, 2 for `Quick Check`, and 2 for each of
the keywords quiz, assessment, test, exam, survey occurring in the lower-cased
URL or title. -/
theorem detectQuizMode_iff_score_ge_four (ctx : PageContext) :
    detectQuizMode ctx = true ↔ quizScoreSpec ctx ≥ 4 := by
  rw [detectQuizMode_eq_spec]
  exact decide_eq_true_iff

/-! ## Execution state and command entry (`handleExecuteCommand`, background.js)

The service worker holds two process-wide flags, `isExecuting` and
`shouldStop`.  `handleExecuteCommand` rejects immediately with a busy error
when `isExecuting` is already set; otherwise it sets `isExecuting`, clears
`shouldStop` and enters the step loop.  The `finally` block clears both flags
on exit.
-/

structure ExecState where
  isExecuting : Bool
  shouldStop : Bool
deriving DecidableEq

/-- The busy rejection returned by `handleExecuteCommand` when a command is
already executing. -/
def busyError : String := "Already executing a command. Please wait or click Stop."

/-- Entry of `handleExecuteCommand`: the new flag state, paired with
`some busyError` when the request is rejected (`none` means the request
claimed the flags and enters the step loop). -/
def commandEntry (s : ExecState) : ExecState × Option String :=
  if s.isExecuting then (s, some busyError)
  else ({ isExecuting := true, shouldStop := false }, none)

/-- Exit of `handleExecuteCommand` (the `finally` block): both flags cleared. -/
def commandExit (_ : ExecState) : ExecState :=
  { isExecuting := false, shouldStop := false }

/-- Does a request processed in state `s` enter the step loop? -/
def entersLoop (s : ExecState) : Bool := ((commandEntry s).2).isNone

/-- C1: a command request arriving while `isExecuting` is true is rejected
with the busy error, does not enter the step loop, and leaves the execution
state unchanged; otherwise the request claims `isExecuting`, clears
`shouldStop`, and enters the loop — and consequently a second request
arriving while the first is inside the loop is rejected, so at most one of
any pair of requests enters the loop. -/
theorem commandEntry_single_flight (s : ExecState) :
    (s.isExecuting = true →
      commandEntry s = (s, some busyError) ∧ entersLoop s = false) ∧
    (s.isExecuting = false →
      (commandEntry s).1.isExecuting = true ∧
      (commandEntry s).1.shouldStop = false ∧
      entersLoop s = true ∧
      entersLoop (commandEntry s).1 = false) := by
  cases s with
  | mk e st => cases e <;> simp [commandEntry, entersLoop]

/-- Witness for `commandEntry_single_flight` at both concrete flag states. -/
theorem commandEntry_single_flight_witness :
    (commandEntry ⟨true, false⟩ = (⟨true, false⟩, some busyError) ∧
      entersLoop ⟨true, false⟩ = false) ∧
    (entersLoop ⟨false, false⟩ = true ∧
      entersLoop (commandEntry ⟨false, false⟩).1 = false) :=
  ⟨(commandEntry_single_flight ⟨true, false⟩).1 rfl,
   ⟨((commandEntry_single_flight ⟨false, false⟩).2 rfl).2.2.1,
    ((commandEntry_single_flight ⟨false, false⟩).2 rfl).2.2.2⟩⟩

/-! ## Conversation history (`AIClient`, ai-client.js)

The dispatcher keeps `conversationHistory`, a list of `{role, content}`
entries.  The mutating operations, taken from the source:
`_trimHistory` (slice to the last 6 entries when the length exceeds 12),
the push of a `{user, assistant}` pair after every successful call followed
by `_trimHistory`, the `json_validate_failed` recovery (clear, then push a
pair without trimming), the agent loop retry path
(`splice(-2, 2)` guarded by `length >= 2`), and `clearHistory`.
-/

inductive Role where
  | user
  | assistant
deriving DecidableEq

structure ConvEntry where
  role : Role
  content : String
deriving DecidableEq

/-- Embedding of `AIClient._trimHistory`: `if (length > 12) history = history.slice(-6)`. -/
def trimHistory (h : List ConvEntry) : List ConvEntry :=
  if h.length > 12 then h.drop (h.length - 6) else h

/-- History update on a successful dispatcher call (`_sendGroq` / `_sendOpenRouter`):
push the user message and the assistant reply, then trim. -/
def recordExchange (h : List ConvEntry) (u a : String) : List ConvEntry :=
  trimHistory (h ++ [⟨Role.user, u⟩, ⟨Role.assistant, a⟩])

/-- History update on the `json_validate_failed` retry path of `_sendGroq`:
the history was cleared before the retry, then the pair is pushed with no trim. -/
def recordExchangeAfterClear (u a : String) : List ConvEntry :=
  [⟨Role.user, u⟩, ⟨Role.assistant, a⟩]

/-- Embedding of the agent loop retry deletion (background.js):
`if (history.length >= 2) history.splice(-2, 2)`. -/
def dropLastPair (h : List ConvEntry) : List ConvEntry :=
  if h.length ≥ 2 then h.take (h.length - 2) else h

/-- All histories reachable from the initial empty history through the
mutating operations the source performs. -/
inductive HistoryReachable : List ConvEntry → Prop where
  | init : HistoryReachable []
  | success (h : List ConvEntry) (u a : String) :
      HistoryReachable h → HistoryReachable (recordExchange h u a)
  | jsonRetry (h : List ConvEntry) (u a : String) :
      HistoryReachable h → HistoryReachable (recordExchangeAfterClear u a)
  | dropPair (h : List ConvEntry) :
      HistoryReachable h → HistoryReachable (dropLastPair h)
  | clear (h : List ConvEntry) :
      HistoryReachable h → HistoryReachable []

/-- Invariant: every reachable history has at most 12 entries (`_trimHistory`
only trims once the length exceeds 12, cutting back to the last 6). -/
theorem historyReachable_length_le (h : List ConvEntry) (hr : HistoryReachable h) :
    h.length ≤ 12 := by
  induction hr with
  | init => simp
  | success h u a _ ih =>
    unfold recordExchange trimHistory
    split
    · rw [List.length_drop]
      omega
    · rename_i hlen
      omega
  | jsonRetry h u a _ _ => simp [recordExchangeAfterClear]
  | dropPair h _ ih =>
    unfold dropLastPair
    split
    · rw [List.length_take]
      omega
    · exact ih
  | clear h _ _ => simp

/-- C4 (amended): after any successful dispatcher call the conversation
history contains at most 12 entries. -/
theorem conversation_cap_twelve (h : List ConvEntry) (u a : String)
    (hr : HistoryReachable h) : (recordExchange h u a).length ≤ 12 :=
  historyReachable_length_le _ (HistoryReachable.success h u a hr)

/-- Witness for `conversation_cap_twelve` at the empty initial history. -/
theorem conversation_cap_twelve_witness :
    (recordExchange [] "u" "a").length ≤ 12 :=
  conversation_cap_twelve [] "u" "a" HistoryReachable.init

/-- C4 counterexample: after four successful dispatcher calls starting from
the empty history, the conversation history holds 8 entries — more than the
6 the claim allows — because `_trimHistory` only trims when the length
exceeds 12. -/
theorem conversation_cap_six_counterexample :
    HistoryReachable
      (recordExchange (recordExchange (recordExchange
        (recordExchange [] "u1" "a1") "u2" "a2") "u3" "a3") "u4" "a4") ∧
    (recordExchange (recordExchange (recordExchange
        (recordExchange [] "u1" "a1") "u2" "a2") "u3" "a3") "u4" "a4").length = 8 := by
  refine ⟨?_, ?_⟩
  · exact .success _ _ _ (.success _ _ _ (.success _ _ _ (.success _ _ _ .init)))
  · rfl

/-- Does the history alternate user/assistant entries, starting with a user
entry, in complete pairs (so in particular it has even length)? -/
def alternatesUA : List ConvEntry → Bool
  | [] => true
  | u :: a :: rest =>
    decide (u.role = Role.user) && decide (a.role = Role.assistant) && alternatesUA rest
  | _ :: [] => false

theorem alternatesUA_length_even (h : List ConvEntry) :
    alternatesUA h = true → h.length % 2 = 0 := by
  induction h using alternatesUA.induct with
  | case1 => intro _; rfl
  | case2 u a rest ih =>
    intro hh
    simp only [alternatesUA, Bool.and_eq_true] at hh
    have := ih hh.2
    simp only [List.length_cons]
    omega
  | case3 => intro hh; simp [alternatesUA] at hh

theorem alternatesUA_append_pair (h : List ConvEntry) (u a : String)
    (hh : alternatesUA h = true) :
    alternatesUA (h ++ [⟨Role.user, u⟩, ⟨Role.assistant, a⟩]) = true := by
  induction h using alternatesUA.induct <;> simp_all [alternatesUA]

theorem alternatesUA_take_even (h : List ConvEntry) (k : Nat)
    (hh : alternatesUA h = true) : alternatesUA (h.take (2 * k)) = true := by
  induction h using alternatesUA.induct generalizing k with
  | case1 => simp [alternatesUA]
  | case2 u a rest ih =>
    cases k with
    | zero => simp [alternatesUA]
    | succ k' =>
      have : 2 * (k' + 1) = 2 * k' + 1 + 1 := by omega
      rw [this]
      simp_all [alternatesUA]
  | case3 => simp_all [alternatesUA]

theorem alternatesUA_drop_even (h : List ConvEntry) (k : Nat)
    (hh : alternatesUA h = true) : alternatesUA (h.drop (2 * k)) = true := by
  induction h using alternatesUA.induct generalizing k with
  | case1 => simp [alternatesUA]
  | case2 u a rest ih =>
    cases k with
    | zero => simpa [alternatesUA] using hh
    | succ k' =>
      have : 2 * (k' + 1) = 2 * k' + 1 + 1 := by omega
      rw [this]
      simp_all [alternatesUA]
  | case3 => simp_all [alternatesUA]

/-- C10: every mutation of the dispatcher conversation history — the append
of a `{user, assistant}` pair after a successful call (with trimming), the
`json_validate_failed` clear-and-push path, the retry deletion of the last
two entries, and clearing — preserves the invariant that the history is a
sequence of complete user/assistant pairs: even length, alternating roles,
starting with a user entry. -/
theorem history_alternates (h : List ConvEntry) (hr : HistoryReachable h) :
    alternatesUA h = true := by
  induction hr with
  | init => rfl
  | success h u a _ ih =>
    unfold recordExchange trimHistory
    have hpair := alternatesUA_append_pair h u a ih
    split
    · have heven := alternatesUA_length_even _ hpair
      obtain ⟨k, hk⟩ : ∃ k,
          (h ++ [ConvEntry.mk Role.user u, ConvEntry.mk Role.assistant a]).length - 6 = 2 * k :=
        ⟨((h ++ [ConvEntry.mk Role.user u, ConvEntry.mk Role.assistant a]).length - 6) / 2,
          by omega⟩
      rw [hk]
      exact alternatesUA_drop_even _ k hpair
    · exact hpair
  | jsonRetry h u a _ _ => rfl
  | dropPair h _ ih =>
    unfold dropLastPair
    split
    · have heven := alternatesUA_length_even _ ih
      obtain ⟨k, hk⟩ : ∃ k, h.length - 2 = 2 * k := ⟨(h.length - 2) / 2, by omega⟩
      rw [hk]
      exact alternatesUA_take_even _ k ih
    · exact ih
  | clear h _ _ => rfl

/-- Witness for `history_alternates`: one successful call, one retry
deletion, on top of the initial history. -/
theorem history_alternates_witness :
    alternatesUA (dropLastPair (recordExchange [] "u" "a")) = true :=
  history_alternates _ (HistoryReachable.dropPair _
    (HistoryReachable.success [] "u" "a" HistoryReachable.init))

/-! ## JSON values

JSON values as produced by `JSON.parse`.  Numbers keep their source lexeme
(no claim inspects numeric values).  Property access `obj.key` on a parse
result is modeled by `objGet`; `JSON.parse` keeps the last of duplicate keys.
-/

inductive Json where
  | null
  | bool (b : Bool)
  | num (raw : String)
  | str (s : String)
  | arr (elems : List Json)
  | obj (fields : List (String × Json))

/-- Last binding of `k` (JS object semantics for duplicate JSON keys). -/
def lookupLast : List (String × Json) → String → Option Json
  | [], _ => none
  | (k', v) :: rest, k =>
    match lookupLast rest k with
    | some r => some r
    | none => if k' = k then some v else none

/-- Model of JS property access `j.k` on a parsed JSON value (non-objects
give `undefined`, modeled as `none`). -/
def objGet (j : Json) (k : String) : Option Json :=
  match j with
  | Json.obj fields => lookupLast fields k
  | _ => none

/-! ## Actions and the action batch of the agent loop (background.js)

An `Action` carries its JS `type` string plus the payload fields the embedded
code reads; a missing field is `none`.  `execBatch` embeds the action loop of
`handleExecuteCommand`: execute actions in order, break after a
`snapshot` / `screenshot` / `search` action (setting `hitSnapshot`), and in
quiz mode sleep 800 ms after a `drag` and break when further actions remain.
The per-action dispatch itself (`executeAction`) is embedded separately; the
batch model records which actions are reached and the quiz drag settles.
-/

structure Action where
  type : String
  frameId : Option Int := none
  index : Option Int := none
  selector : Option String := none
  fromSelector : Option String := none
  toSelector : Option String := none
  url : Option String := none
  query : Option String := none
deriving DecidableEq

/-- Break-point action types of the agent loop (background.js):
`snapshot`, `screenshot`, `search`. -/
def isBreakPointType (t : String) : Bool :=
  t = "snapshot" || t = "screenshot" || t = "search"

structure BatchResult where
  executed : List Action
  hitSnapshot : Bool
  waits : List Nat
deriving DecidableEq

/-- Embedding of the action loop of `handleExecuteCommand` (background.js):
returns the executed prefix, the `hitSnapshot` flag, and the list of 800 ms
quiz drag settle delays, in order. -/
def execBatch (mode : String) : List Action → BatchResult
  | [] => ⟨[], false, []⟩
  | a :: rest =>
    if isBreakPointType a.type then ⟨[a], true, []⟩
    else if mode = "quiz" && a.type = "drag" then
      if rest.isEmpty then ⟨[a], false, [800]⟩
      else ⟨[a], true, [800]⟩
    else
      let r := execBatch mode rest
      ⟨a :: r.executed, r.hitSnapshot, r.waits⟩

/-- Actions that end a batch early under `mode`: the break-point types, plus
`drag` in quiz mode. -/
def isBatchBreakType (mode : String) (a : Action) : Bool :=
  isBreakPointType a.type || (mode = "quiz" && a.type = "drag")

/-- C3: the executed part of a batch is the prefix of the action list ending
at the first break action (so no action positioned after the first
snapshot / screenshot / search — or, in quiz mode, drag — is executed), and
an 800 ms settle delay accompanies exactly the executed drag actions in quiz
mode (and only in quiz mode). -/
theorem breakPointType_ne_drag (t : String) (h : isBreakPointType t = true) :
    decide (t = "drag") = false := by
  unfold isBreakPointType at h
  simp only [Bool.or_eq_true, decide_eq_true_eq] at h
  rcases h with (h | h) | h <;> subst h <;> decide

theorem batch_break_semantics (mode : String) (l : List Action) :
    (∀ i, i < l.length → l.findIdx (isBatchBreakType mode) = i →
      (execBatch mode l).executed = l.take (i + 1)) ∧
    (execBatch mode l).waits = ((execBatch mode l).executed.filter
      (fun a => mode = "quiz" && a.type = "drag")).map (fun _ => 800) := by
  induction l with
  | nil => exact ⟨by intro i hi _; simp at hi, rfl⟩
  | cons a rest ih =>
    cases hbp : isBreakPointType a.type with
    | true =>
      have hbrk : isBatchBreakType mode a = true := by
        simp [isBatchBreakType, hbp]
      refine ⟨?_, ?_⟩
      · intro i hi hidx
        rw [List.findIdx_cons, hbrk] at hidx
        simp only [cond_true] at hidx
        subst hidx
        simp [execBatch, hbp]
      · simp [execBatch, hbp, breakPointType_ne_drag a.type hbp]
    | false =>
      cases hq : (decide (mode = "quiz") && decide (a.type = "drag")) with
      | true =>
        have hbrk : isBatchBreakType mode a = true := by
          simp only [isBatchBreakType, hq, Bool.or_true]
        refine ⟨?_, ?_⟩
        · intro i hi hidx
          rw [List.findIdx_cons, hbrk] at hidx
          simp only [cond_true] at hidx
          subst hidx
          cases rest with
          | nil => simp [execBatch, hbp, hq]
          | cons b rs => simp [execBatch, hbp, hq]
        · cases rest with
          | nil => simp [execBatch, hbp, hq]
          | cons b rs => simp [execBatch, hbp, hq]
      | false =>
        have hbrk : isBatchBreakType mode a = false := by
          simp only [isBatchBreakType, hq, hbp, Bool.or_false]
        refine ⟨?_, ?_⟩
        · intro i hi hidx
          rw [List.findIdx_cons, hbrk] at hidx
          simp only [cond_false] at hidx
          cases i with
          | zero => omega
          | succ i' =>
            have hidx' : rest.findIdx (isBatchBreakType mode) = i' := by omega
            have hre := ih.1 i' (by simpa using hi) hidx'
            simp [execBatch, hbp, hq, hre]
        · simp [execBatch, hbp, hq, ih.2]

/-- Witness for `batch_break_semantics`: in quiz mode, a batch
click–drag–click executes only the first two actions and settles 800 ms
once, after the drag. -/
theorem batch_break_semantics_witness :
    (execBatch "quiz" [{ type := "click" }, { type := "drag" }, { type := "click" }]).executed
        = List.take 2 [{ type := "click" }, { type := "drag" }, { type := "click" }] ∧
    (execBatch "quiz" [{ type := "click" }, { type := "drag" }, { type := "click" }]).waits
        = ((execBatch "quiz" [{ type := "click" }, { type := "drag" }, { type := "click" }]).executed.filter
            (fun a => "quiz" = "quiz" && a.type = "drag")).map (fun _ => 800) :=
  ⟨(batch_break_semantics "quiz" _).1 1 (by decide) (by decide),
   (batch_break_semantics "quiz" _).2⟩

/-! ## Done semantics of the agent loop (background.js)

After executing a batch, `handleExecuteCommand` reads
`isDone = response.done === true || response.done === 'true'` and breaks the
step loop when `isDone && !(hitSnapshot && executionMode === 'quiz')`, where
`hitSnapshot` was set by any break-point in the batch.
-/

/-- Embedding of `response.done === true || response.done === 'true'`. -/
def jsIsDone : Option Json → Bool
  | some (Json.bool true) => true
  | some (Json.str s) => s = "true"
  | _ => false

/-- The fields of a model decision the agent loop reads. -/
structure ModelDecision where
  thinking : Option String := none
  actions : List Action := []
  done : Option Json := none
  mode : Option String := none
  summary : Option String := none

/-- Embedding of the loop-exit test of `handleExecuteCommand`:
`isDone && !(hitSnapshot && executionMode === 'quiz')`. -/
def stepBreaksLoop (mode : String) (dec : ModelDecision) : Bool :=
  jsIsDone dec.done && !((execBatch mode dec.actions).hitSnapshot && decide (mode = "quiz"))

/-- The `hitSnapshot` flag of a batch is set exactly when the batch contains
a break-point action, or, in quiz mode, a drag action that is not in last
position. -/
theorem execBatch_cons_eq (mode : String) (a : Action) (rest : List Action) :
    execBatch mode (a :: rest) =
      if isBreakPointType a.type then ⟨[a], true, []⟩
      else if (decide (mode = "quiz") && decide (a.type = "drag")) = true then
        (if rest.isEmpty then ⟨[a], false, [800]⟩ else ⟨[a], true, [800]⟩)
      else ⟨a :: (execBatch mode rest).executed,
        (execBatch mode rest).hitSnapshot, (execBatch mode rest).waits⟩ := rfl

theorem execBatch_cons_skip (mode : String) (a : Action) (rest : List Action)
    (hbp : isBreakPointType a.type = false)
    (hq : (decide (mode = "quiz") && decide (a.type = "drag")) = false) :
    execBatch mode (a :: rest) = ⟨a :: (execBatch mode rest).executed,
      (execBatch mode rest).hitSnapshot, (execBatch mode rest).waits⟩ := by
  rw [execBatch_cons_eq, hbp, hq]
  simp

theorem hitSnapshot_iff (mode : String) (l : List Action) :
    (execBatch mode l).hitSnapshot = true ↔
      ((∃ a ∈ l, isBreakPointType a.type = true) ∨
        (mode = "quiz" ∧ ∃ a ∈ l.dropLast, a.type = "drag")) := by
  induction l with
  | nil => simp [execBatch]
  | cons a rest ih =>
    cases hbp : isBreakPointType a.type with
    | true =>
      simp [execBatch, hbp]
    | false =>
      cases hq : (decide (mode = "quiz") && decide (a.type = "drag")) with
      | true =>
        have hq' := hq
        simp only [Bool.and_eq_true, decide_eq_true_eq] at hq'
        obtain ⟨hmode, hdrag⟩ := hq'
        rw [execBatch_cons_eq, hbp, hq]
        cases rest with
        | nil =>
          simp only [Bool.false_eq_true, if_false, if_true, List.isEmpty_nil]
          simp only [List.dropLast_single, List.not_mem_nil]
          constructor
          · intro h; exact absurd h (by simp)
          · rintro (⟨x, hx, hbx⟩ | ⟨_, x, hx, _⟩)
            · rcases List.mem_singleton.mp hx with hax
              subst hax; exact absurd hbx (by simp [hbp])
            · exact absurd hx (by simp)
        | cons b rs =>
          simp only [Bool.false_eq_true, if_false, if_true, List.isEmpty_cons]
          have hdl : (a :: b :: rs).dropLast = a :: (b :: rs).dropLast := rfl
          rw [hdl]
          constructor
          · intro _
            exact Or.inr ⟨hmode, a, List.mem_cons_self a _, hdrag⟩
          · intro _; trivial
      | false =>
        rw [execBatch_cons_skip mode a rest hbp hq]
        have hq' := hq
        simp only [Bool.and_eq_false_iff, decide_eq_false_iff_not] at hq'
        cases rest with
        | nil =>
          simp only [execBatch]
          simp [hbp]
        | cons b rs =>
          have hdl : (a :: b :: rs).dropLast = a :: (b :: rs).dropLast := rfl
          show (execBatch mode (b :: rs)).hitSnapshot = true ↔ _
          rw [ih, hdl]
          constructor
          · rintro (⟨x, hx, hbx⟩ | ⟨hm, x, hx, hdx⟩)
            · exact Or.inl ⟨x, List.mem_cons_of_mem a hx, hbx⟩
            · exact Or.inr ⟨hm, x, List.mem_cons_of_mem a hx, hdx⟩
          · rintro (⟨x, hx, hbx⟩ | ⟨hm, x, hx, hdx⟩)
            · rcases List.mem_cons.mp hx with hax | hx'
              · subst hax; exact absurd hbx (by simp [hbp])
              · exact Or.inl ⟨x, hx', hbx⟩
            · rcases List.mem_cons.mp hx with hax | hx'
              · subst hax
                rcases hq' with hq' | hq'
                · exact absurd hm hq'
                · exact absurd hdx hq'
              · exact Or.inr ⟨hm, x, hx', hdx⟩

/-- C2 (amended): the loop terminates at a step whose decision has
`done = true` (or the string `'true'`) — except when the mode is quiz and
the executed batch hit a break-point (a snapshot, screenshot or search
action, or a drag action with further actions pending), in which case the
loop continues to the next step. -/
theorem done_semantics (mode : String) (dec : ModelDecision) :
    stepBreaksLoop mode dec = true ↔
      (jsIsDone dec.done = true ∧
        ¬(mode = "quiz" ∧ ((∃ a ∈ dec.actions, isBreakPointType a.type = true) ∨
          (∃ a ∈ dec.actions.dropLast, a.type = "drag")))) := by
  unfold stepBreaksLoop
  simp only [Bool.and_eq_true, Bool.not_eq_true', Bool.and_eq_false_iff,
    decide_eq_false_iff_not]
  constructor
  · rintro ⟨hdone, hs⟩
    refine ⟨hdone, ?_⟩
    rintro ⟨hm, hbrk⟩
    have : (execBatch mode dec.actions).hitSnapshot = true := by
      rw [hitSnapshot_iff]
      rcases hbrk with h | h
      · exact Or.inl h
      · exact Or.inr ⟨hm, h⟩
    rcases hs with hs | hs
    · rw [this] at hs; exact absurd hs (by simp)
    · exact hs hm
  · rintro ⟨hdone, hnot⟩
    refine ⟨hdone, ?_⟩
    by_cases hm : mode = "quiz"
    · left
      cases hsnap : (execBatch mode dec.actions).hitSnapshot with
      | false => rfl
      | true =>
        exfalso
        rcases (hitSnapshot_iff mode dec.actions).mp hsnap with h | h
        · exact hnot ⟨hm, Or.inl h⟩
        · exact hnot ⟨hm, Or.inr h.2⟩
    · right; exact hm

/-- C2 counterexample: in quiz mode, a decision whose batch is the single
action `screenshot` (not a snapshot) and whose `done` is `true` does not
terminate the loop, because the source sets `hitSnapshot` on every
break-point action, not only on `snapshot`. -/
theorem done_semantics_counterexample :
    jsIsDone (ModelDecision.mk none [{ type := "screenshot" }]
        (some (Json.bool true)) none none).done = true ∧
    (∀ a ∈ (ModelDecision.mk none [{ type := "screenshot" }]
        (some (Json.bool true)) none none).actions, a.type ≠ "snapshot") ∧
    stepBreaksLoop "quiz" (ModelDecision.mk none [{ type := "screenshot" }]
        (some (Json.bool true)) none none) = false := by
  refine ⟨rfl, ?_, rfl⟩
  intro a ha
  simp only [List.mem_singleton] at ha
  subst ha
  decide

/-! ## Action executor (`executeAction`, background.js)

`executeAction` dispatches on `action.type`.  Browser and content-script
interactions are modeled by a `BrowserEnv` supplying the settled value of each
external call (the content script replies to every routed action — its own
handler catches errors and answers `{success:false}` — and the browser
primitives succeed; failures of those layers are caught per-action by the
loop and are outside the executor dispatch modeled here).  A JS exception
thrown by `executeAction` itself is `Except.error`.
-/

structure JSResult where
  success : Option Bool := none
  error : Option String := none
  text : Option String := none
  screenshot : Option String := none
deriving DecidableEq

/-- JS truthiness of `r?.success` for a possibly-null result. -/
def truthySuccess : Option JSResult → Bool
  | some r => r.success = some true
  | none => false

/-- JS truthiness of `r?.error?.toLowerCase().includes('not found')`. -/
def errorContainsNotFound : Option JSResult → Bool
  | some r =>
    match r.error with
    | some e => jsIncludes (jsToLower e) "not found"
    | none => false
  | none => false

/-- JS falsiness of `action.frameId` (absent or zero). -/
def jsFalsyFrameId : Option Int → Bool
  | none => true
  | some i => i = 0

/-- JS `x || y` on optional strings (the empty string is falsy). -/
def jsOrStr (x y : Option String) : Option String :=
  match x with
  | some s => if s = "" then y else some s
  | none => y

/-- Environment of settled external-call values for one `executeAction` run. -/
structure BrowserEnv where
  contentReply : Option Int → Action → Option JSResult
  dragFirstReply : Option Int → Action → Option JSResult
  frames : List Int
  dragReplyAt : Int → Action → Except Unit (Option JSResult)
  searchEnabled : Bool
  searchModel : String
  searchAnswer : Option String
  visualMapText : String
  screenshotData : String
  tabListText : String
  numTabs : Nat

/-- Embedding of the drag frame sweep of `executeAction` (background.js): when
the first attempt did not succeed and the action carried no frame id, retry
the drag in every non-top frame, stopping at a success or at an error other
than not-found; a frame whose message send rejects is skipped. -/
def sweepFrames (env : BrowserEnv) (act : Action) :
    List Int → Option JSResult → Option JSResult
  | [], cur => cur
  | f :: rest, cur =>
    if f = 0 then sweepFrames env act rest cur
    else
      match env.dragReplyAt f act with
      | Except.error _ => sweepFrames env act rest cur
      | Except.ok r =>
        if truthySuccess r then r
        else if errorContainsNotFound r then sweepFrames env act rest cur
        else r

/-- Embedding of the `drag` case of `executeAction` (background.js): build the
drag action from `fromSelector || selector` and `toSelector`, try the
requested frame (the first attempt catches rejections into a
`{success:false}` result, supplied settled by the environment), then sweep
the remaining frames when the attempt failed and no frame id was given.
This path never throws. -/
def executeDrag (env : BrowserEnv) (a : Action) : Option JSResult :=
  let dragAction : Action :=
    { type := "drag", fromSelector := jsOrStr a.fromSelector a.selector,
      toSelector := a.toSelector }
  let dragResult := env.dragFirstReply a.frameId dragAction
  if !truthySuccess dragResult && jsFalsyFrameId a.frameId then
    sweepFrames env dragAction env.frames dragResult
  else dragResult

/-- String shown for `action.index` in the tab_switch range error. -/
def indexText : Option Int → String
  | some i => toString i
  | none => "undefined"

/-- Embedding of `executeAction` (background.js). -/
def executeAction (env : BrowserEnv) (mode : String) (a : Action) :
    Except String (Option JSResult) :=
  match a.type with
  | "click" | "type" | "hover" | "scroll" | "extract" | "evaluate"
  | "keyboard" | "select" | "wait" | "describe" =>
    Except.ok (env.contentReply a.frameId a)
  | "drag" => Except.ok (executeDrag env a)
  | "search" =>
    if !env.searchEnabled || env.searchModel = "" then
      Except.ok (some { success := some false,
                        text := some "Search not configured. Enable it in Settings and select a search model (e.g. compound)." })
    else
      match env.searchAnswer with
      | none => Except.ok (some { success := some false, text := some "Search returned no results." })
      | some answer => Except.ok (some { success := some true, text := some answer })
  | "snapshot" => Except.ok (some { success := some true, text := some env.visualMapText })
  | "navigate" => Except.ok (some { success := some true })
  | "screenshot" => Except.ok (some { success := some true,
                                      screenshot := some env.screenshotData,
                                      text := some env.visualMapText })
  | "tab_new" => Except.ok (some { success := some true })
  | "tab_close" => Except.ok (some { success := some true })
  | "tab_switch" =>
    match a.index with
    | some i =>
      if 0 ≤ i ∧ i < (env.numTabs : Int) then Except.ok (some { success := some true })
      else Except.error ("Tab index " ++ indexText a.index ++
        " out of range (0-" ++ toString ((env.numTabs : Int) - 1) ++ ")")
    | none => Except.error ("Tab index " ++ indexText a.index ++
        " out of range (0-" ++ toString ((env.numTabs : Int) - 1) ++ ")")
  | "tab_list" => Except.ok (some { success := some true, text := some env.tabListText })
  | "tab_group_create" => Except.ok (some { success := some true, text := some "Created group" })
  | "tab_group_add" => Except.ok (some { success := some true, text := some "Added tabs to group" })
  | "tab_group_remove" => Except.ok (some { success := some true, text := some "Group removed" })
  | t => Except.error ("Unknown action type: " ++ t)

/-- The action vocabulary of the executor dispatch. -/
def knownActionType (t : String) : Bool :=
  ["click", "type", "hover", "scroll", "extract", "evaluate", "keyboard",
   "select", "wait", "describe", "drag", "search", "snapshot", "navigate",
   "screenshot", "tab_new", "tab_close", "tab_switch", "tab_list",
   "tab_group_create", "tab_group_add", "tab_group_remove"].contains t

/-- C7 (amended): `executeAction` throws exactly on unknown action types and
on `tab_switch` with a missing or out-of-range index; every other action of a
known type returns a result (assuming the content script and browser calls
settle, as modeled by the environment). -/
theorem executeAction_throws_iff (env : BrowserEnv) (mode : String) (a : Action) :
    (∃ e, executeAction env mode a = Except.error e) ↔
      (knownActionType a.type = false ∨
        (a.type = "tab_switch" ∧
          ¬∃ i, a.index = some i ∧ 0 ≤ i ∧ i < (env.numTabs : Int))) := by
  unfold executeAction
  split
  all_goals first
  | -- known action types other than tab_switch: always a result, never a throw
    (rename_i ht
     refine iff_of_false ?_ ?_
     · rintro ⟨e, he⟩
       revert he
       try split
       all_goals try split
       all_goals intro he
       all_goals exact Except.noConfusion he
     · rw [ht]
       rintro (h | ⟨h, _⟩)
       · exact absurd h (by decide)
       · exact absurd h (by decide))
  | -- tab_switch: throws exactly on a missing or out-of-range index
    (rename_i ht
     rw [ht]
     have hk : knownActionType "tab_switch" = true := by decide
     simp only [hk, Bool.true_eq_false, false_or, true_and]
     cases hidx : a.index with
     | none =>
       simp only [hidx]
       refine iff_of_true ⟨_, rfl⟩ ?_
       rintro ⟨i, hi, _, _⟩
       exact Option.noConfusion hi
     | some i =>
       simp only [hidx]
       by_cases hrange : 0 ≤ i ∧ i < (env.numTabs : Int)
       · rw [if_pos hrange]
         refine iff_of_false ?_ ?_
         · rintro ⟨e, he⟩
           exact Except.noConfusion he
         · intro hno
           exact hno ⟨i, rfl, hrange.1, hrange.2⟩
       · rw [if_neg hrange]
         refine iff_of_true ⟨_, rfl⟩ ?_
         rintro ⟨j, hj, h0, hn⟩
         injection hj with hij
         subst hij
         exact hrange ⟨h0, hn⟩)
  | -- unknown action types: always a throw
    (refine iff_of_true ⟨_, rfl⟩ (Or.inl ?_)
     simp only [knownActionType, List.contains, List.elem_eq_mem, decide_eq_false_iff_not,
       List.mem_cons, List.not_mem_nil, or_false]
     intro hmem
     simp_all)

/-- Environment with two tabs and well-behaved content-script replies. -/
def sampleEnv : BrowserEnv where
  contentReply := fun _ _ => some { success := some true }
  dragFirstReply := fun _ _ => some { success := some true }
  frames := [0, 7]
  dragReplyAt := fun _ _ => Except.ok (some { success := some true })
  searchEnabled := false
  searchModel := ""
  searchAnswer := none
  visualMapText := ""
  screenshotData := ""
  tabListText := ""
  numTabs := 2

/-- C7 counterexample: `tab_switch` is a known action type of the vocabulary,
yet with an out-of-range index (5 among 2 tabs) `executeAction` throws a
ranged error instead of returning a result. -/
theorem executeAction_tab_switch_counterexample :
    knownActionType "tab_switch" = true ∧
    executeAction sampleEnv "normal" { type := "tab_switch", index := some 5 }
      = Except.error "Tab index 5 out of range (0-1)" := by
  refine ⟨by decide, ?_⟩
  rfl

/-! ## Visual map diffing (`computeMapDiff`, background.js)

Maps are handled through their line lists (`split('\n')` / `join('\n')`).
A section holds its `===` header line and its body; the source keeps the body
as a joined string and re-splits it for element extraction, which is the
identity on the line list, so the embedding stores the body as lines and
joins exactly where the source formats output. -/

/-- Test of `getElementLines` (background.js): `l.trim().startsWith('[')`. -/
def isElementLine (l : String) : Bool :=
  jsStartsWith (jsTrim l) "["

/-- Embedding of `getElementLines` on a line list. -/
def elemLines (L : List String) : List String :=
  L.filter isElementLine

structure MapSection where
  header : String
  body : List String
deriving DecidableEq

/-- Worker of `splitSections` (background.js): walk the lines, starting a new
section at every line beginning `===`; lines before the first header are
discarded (the accumulated body is only pushed under a truthy header). -/
def splitSectionsGo : List String → String → List String → List MapSection
  | [], h, body => if h = "" then [] else [⟨h, body⟩]
  | l :: ls, h, body =>
    if jsStartsWith l "===" then
      (if h = "" then [] else [⟨h, body⟩]) ++ splitSectionsGo ls l []
    else
      splitSectionsGo ls h (body ++ [l])

/-- Embedding of `splitSections` (background.js). -/
def splitSections (L : List String) : List MapSection :=
  splitSectionsGo L "" []

/-- Old-section lookup of `computeMapDiff`: an iframe section matches the
first old section whose header mentions `IFRAME`, any other section matches
the first old `VISUAL PAGE MAP` section. -/
def findOldSection (oldSections : List MapSection) (ns : MapSection) : Option MapSection :=
  if jsIncludes ns.header "IFRAME" then
    oldSections.find? (fun s => jsIncludes s.header "IFRAME")
  else
    oldSections.find? (fun s => jsIncludes s.header "VISUAL PAGE MAP")

/-- Element lines of the matched old section (empty when none matches),
exactly as `computeMapDiff` computes `oldSecEls`. -/
def oldSectionElems (oldSections : List MapSection) (ns : MapSection) : List String :=
  elemLines (((findOldSection oldSections ns).map MapSection.body).getD [])

/-- The unchanged test of `computeMapDiff`:
`oldSecEls.join('\n') === newSecEls.join('\n')`. -/
def sectionUnchanged (oldSections : List MapSection) (ns : MapSection) : Bool :=
  joinNL (oldSectionElems oldSections ns) = joinNL (elemLines ns.body)

/-- Model of the regex capture `line.match(/sel="([^"]+)"/)?.[1]`. -/
def firstSelCapture : List Char → Option String
  | [] => none
  | c :: rest =>
    if ("sel=\"".data).isPrefixOf (c :: rest) then
      let after := (c :: rest).drop 5
      let grab := after.takeWhile (fun x => !(x = '"'))
      if grab.isEmpty then firstSelCapture rest
      else
        match after.drop grab.length with
        | '"' :: _ => some ⟨grab⟩
        | _ => firstSelCapture rest
    else firstSelCapture rest

/-- Model of `[...line.matchAll(/"([^"]+)"/g)].map(m => m[1])`, fueled to stay
structurally recursive (the fuel is sized to the input below). -/
def scanQuotedF : Nat → List Char → List String
  | 0, _ => []
  | _ + 1, [] => []
  | fuel + 1, '"' :: rest =>
    let grab := rest.takeWhile (fun x => !(x = '"'))
    match rest.drop grab.length with
    | '"' :: rest2 =>
      if grab.isEmpty then scanQuotedF fuel rest
      else String.mk grab :: scanQuotedF fuel rest2
    | _ => []
  | fuel + 1, _ :: rest => scanQuotedF fuel rest

def allQuotedCaptures (l : String) : List String :=
  scanQuotedF (l.data.length + 1) l.data

/-- JS `Array.prototype.join(sep)`. -/
def joinSep (sep : String) : List String → String
  | [] => ""
  | [s] => s
  | s :: rest => s ++ sep ++ joinSep sep rest

/-- One entry of the `Key controls:` reference list of `computeMapDiff`:
the first `sel="…"` capture, labelled by the first other quoted string that
is not a URL and is short; `none` when the line has no selector. -/
def keyControlRef (line : String) : Option String :=
  match firstSelCapture line.data with
  | none => none
  | some sel =>
    let quotes := allQuotedCaptures line
    match quotes.find? (fun q => decide (q ≠ sel) && !jsStartsWith q "http" &&
        !jsStartsWith q "javascript:" && decide (q.length < 50)) with
    | some text => some ("\"" ++ text ++ "\" sel=\"" ++ sel ++ "\"")
    | none => some ("sel=\"" ++ sel ++ "\"")

/-- Output lines of `computeMapDiff` for one new section: a compact summary
when the element lines match the corresponding old section (with the
`Key controls:` reference list for the outer page), the full section
otherwise. -/
def diffSectionLines (oldSections : List MapSection) (ns : MapSection) : List String :=
  let newSecEls := elemLines ns.body
  if sectionUnchanged oldSections ns then
    if jsIncludes ns.header "IFRAME" then
      ["", "[Iframe: " ++ toString newSecEls.length ++ " elements unchanged]"]
    else
      let refs := (newSecEls.filter (fun l => jsIncludes l "[*")).filterMap keyControlRef
      ["", "[Outer page: " ++ toString newSecEls.length ++ " elements unchanged]"] ++
        (if refs.isEmpty then [] else ["Key controls: " ++ joinSep " | " refs])
  else
    ["", ns.header, jsTrim (joinNL ns.body)]

/-- Embedding of `computeMapDiff(oldMap, newMap)` (background.js). -/
def computeMapDiff (oldMap newMap : String) : String :=
  if oldMap = "" then newMap
  else
    let oldSections := splitSections (toLines oldMap)
    let newSections := splitSections (toLines newMap)
    let oldEls := joinNL (elemLines (toLines oldMap))
    let newEls := joinNL (elemLines (toLines newMap))
    if oldEls = newEls then "[Page unchanged]"
    else
      joinNL (["=== PAGE UPDATE (diff) ===",
        "Unchanged sections omitted. Previous selectors still valid."] ++
        newSections.flatMap (fun ns => diffSectionLines oldSections ns))

/-- The section-wise overlay the claim describes, applied to `A`: rebuild the
document from the diff report — for each section of `B` (in diff order), a
section reported changed is replaced by the replayed new content, a section
reported unchanged keeps the old section the differ matched; a
`[Page unchanged]` diff keeps `A` whole, and an empty `A` (where the diff is
`B` itself) is replaced by `B`.  Only element lines are compared, as the
claim states. -/
def overlayElemLines (A B : String) : List String :=
  if A = "" then elemLines (toLines B)
  else if joinNL (elemLines (toLines A)) = joinNL (elemLines (toLines B)) then
    elemLines (toLines A)
  else
    (splitSections (toLines B)).flatMap (fun ns =>
      if sectionUnchanged (splitSections (toLines A)) ns then
        oldSectionElems (splitSections (toLines A)) ns
      else elemLines ns.body)

/-! ### Facts about lines, joins and sections used for the diff theorem -/

theorem splitCharList_ne_nil (sep : Char) (cs : List Char) : splitCharList sep cs ≠ [] := by
  induction cs with
  | nil => simp [splitCharList]
  | cons c cs ih =>
    simp only [splitCharList]
    split
    · simp
    · cases h : splitCharList sep cs with
      | nil => exact absurd h ih
      | cons y ys => simp

theorem mem_splitCharList (sep : Char) (cs : List Char) (l : List Char)
    (hl : l ∈ splitCharList sep cs) : sep ∉ l := by
  induction cs generalizing l with
  | nil =>
    simp only [splitCharList, List.mem_singleton] at hl
    subst hl
    simp
  | cons c cs ih =>
    simp only [splitCharList] at hl
    by_cases hc : c = sep
    · rw [if_pos hc] at hl
      rcases List.mem_cons.mp hl with h | h
      · subst h; simp
      · exact ih l h
    · rw [if_neg hc] at hl
      cases hsp : splitCharList sep cs with
      | nil => exact absurd hsp (splitCharList_ne_nil sep cs)
      | cons y ys =>
        rw [hsp] at hl
        rcases List.mem_cons.mp hl with h | h
        · subst h
          intro hmem
          rcases List.mem_cons.mp hmem with h' | h'
          · exact hc h'.symm
          · exact ih y (by rw [hsp]; exact List.mem_cons_self y ys) h'
        · exact ih l (by rw [hsp]; exact List.mem_cons_of_mem y h)

theorem toLines_no_newline (s : String) (l : String) (hl : l ∈ toLines s) :
    '\n' ∉ l.data := by
  unfold toLines at hl
  rcases List.mem_map.mp hl with ⟨cs, hcs, hmk⟩
  rw [← hmk]
  exact mem_splitCharList '\n' s.data cs hcs

theorem isElementLine_ne_nil (l : String) (h : isElementLine l = true) : l.data ≠ [] := by
  intro hd
  have hempty : l = "" := String.ext (by rw [hd])
  subst hempty
  exact absurd h (by decide)

theorem joinNL_data_cons (s : String) (rest : List String) (h : rest ≠ []) :
    (joinNL (s :: rest)).data = s.data ++ '\n' :: (joinNL rest).data := by
  cases rest with
  | nil => exact absurd rfl h
  | cons t ts =>
    show (s ++ "\n" ++ joinNL (t :: ts)).data = _
    rw [String.data_append, String.data_append]
    simp

theorem append_newline_inj (a : List Char) (b as bs : List Char)
    (ha : '\n' ∉ a) (hb : '\n' ∉ b)
    (h : a ++ '\n' :: as = b ++ '\n' :: bs) : a = b ∧ as = bs := by
  induction a generalizing b with
  | nil =>
    cases b with
    | nil => simpa using h
    | cons y ys =>
      exfalso
      simp only [List.nil_append, List.cons_append, List.cons.injEq] at h
      exact hb (h.1 ▸ List.mem_cons_self y ys)
  | cons x xs ih =>
    cases b with
    | nil =>
      exfalso
      simp only [List.nil_append, List.cons_append, List.cons.injEq] at h
      exact ha (h.1.symm ▸ List.mem_cons_self x xs)
    | cons y ys =>
      simp only [List.cons_append, List.cons.injEq] at h
      obtain ⟨hxy, htail⟩ := h
      have hxs : '\n' ∉ xs := fun hm => ha (List.mem_cons_of_mem x hm)
      have hys : '\n' ∉ ys := fun hm => hb (List.mem_cons_of_mem y hm)
      obtain ⟨h1, h2⟩ := ih ys hxs hys htail
      exact ⟨by rw [hxy, h1], h2⟩

theorem joinNL_inj (xs : List String) (ys : List String)
    (hx : ∀ x ∈ xs, x.data ≠ [] ∧ '\n' ∉ x.data)
    (hy : ∀ y ∈ ys, y.data ≠ [] ∧ '\n' ∉ y.data)
    (h : joinNL xs = joinNL ys) : xs = ys := by
  induction xs generalizing ys with
  | nil =>
    cases ys with
    | nil => rfl
    | cons y ts =>
      exfalso
      cases ts with
      | nil =>
        have hd : ("" : String).data = y.data := congrArg String.data h
        exact (hy y (by simp)).1 (by rw [← hd])
      | cons t ts' =>
        have hd := congrArg String.data h
        rw [joinNL_data_cons y (t :: ts') (by simp)] at hd
        have : ([] : List Char) = y.data ++ '\n' :: (joinNL (t :: ts')).data := hd
        exact absurd this.symm (by simp)
  | cons x xs ih =>
    cases ys with
    | nil =>
      exfalso
      cases xs with
      | nil =>
        have hd : x.data = ("" : String).data := congrArg String.data h
        exact (hx x (by simp)).1 (by rw [hd])
      | cons t ts' =>
        have hd := congrArg String.data h
        rw [joinNL_data_cons x (t :: ts') (by simp)] at hd
        have : x.data ++ '\n' :: (joinNL (t :: ts')).data = ([] : List Char) := hd
        exact absurd this (by simp)
    | cons y ts =>
      cases xs with
      | nil =>
        cases ts with
        | nil =>
          have : x = y := h
          rw [this]
        | cons t ts' =>
          exfalso
          have hd := congrArg String.data h
          rw [joinNL_data_cons y (t :: ts') (by simp)] at hd
          have hmem : '\n' ∈ x.data := by
            rw [show (joinNL [x]).data = x.data from rfl] at hd
            rw [hd]
            exact List.mem_append_right _ (List.mem_cons_self _ _)
          exact absurd hmem (hx x (by simp)).2
      | cons x2 xs2 =>
        cases ts with
        | nil =>
          exfalso
          have hd := congrArg String.data h
          rw [joinNL_data_cons x (x2 :: xs2) (by simp)] at hd
          have hmem : '\n' ∈ y.data := by
            rw [show (joinNL [y]).data = y.data from rfl] at hd
            rw [← hd]
            exact List.mem_append_right _ (List.mem_cons_self _ _)
          exact absurd hmem (hy y (by simp)).2
        | cons t ts' =>
          have hd := congrArg String.data h
          rw [joinNL_data_cons x (x2 :: xs2) (by simp),
            joinNL_data_cons y (t :: ts') (by simp)] at hd
          obtain ⟨h1, h2⟩ := append_newline_inj x.data y.data _ _
            (hx x (by simp)).2 (hy y (by simp)).2 hd
          have hxy : x = y := String.ext h1
          have hrest : joinNL (x2 :: xs2) = joinNL (t :: ts') := String.ext h2
          have htl := ih (t :: ts') (fun z hz => hx z (List.mem_cons_of_mem x hz))
            (fun z hz => hy z (List.mem_cons_of_mem y hz)) hrest
          rw [hxy, htl]

/-- Concatenated element lines of a section list. -/
def flatElems (ss : List MapSection) : List String :=
  ss.flatMap (fun s => elemLines s.body)

theorem dropWhile_append_singleton (p : Char → Bool) (as : List Char) (c : Char)
    (hc : p c = false) : (as ++ [c]).dropWhile p = as.dropWhile p ++ [c] := by
  induction as with
  | nil => simp [List.dropWhile, hc]
  | cons a as ih =>
    simp only [List.cons_append, List.dropWhile]
    split <;> simp_all

theorem trimChars_cons (c : Char) (xs : List Char) (hc : isJsWs c = false) :
    trimChars (c :: xs) = c :: (xs.reverse.dropWhile isJsWs).reverse := by
  unfold trimChars
  rw [List.dropWhile_cons_of_neg (by simp [hc])]
  rw [List.reverse_cons, dropWhile_append_singleton isJsWs xs.reverse c hc]
  simp

theorem header_not_elementLine (l : String) (h : jsStartsWith l "===" = true) :
    isElementLine l = false := by
  unfold jsStartsWith at h
  rw [List.isPrefixOf_iff_prefix] at h
  obtain ⟨t, ht⟩ := h
  unfold isElementLine jsStartsWith jsTrim
  have hdata : l.data = '=' :: ('=' :: '=' :: t) := by
    rw [← ht]; rfl
  rw [hdata, trimChars_cons '=' _ (by decide)]
  simp [List.isPrefixOf]

theorem jsStartsWith_header_ne_empty (l : String) (h : jsStartsWith l "===" = true) :
    l ≠ "" := by
  intro he
  subst he
  exact absurd h (by decide)

theorem elemLines_cons (l : String) (ls : List String) :
    elemLines (l :: ls) = (if isElementLine l then [l] else []) ++ elemLines ls := by
  unfold elemLines
  rw [List.filter_cons]
  split <;> simp

theorem elemLines_append (xs ys : List String) :
    elemLines (xs ++ ys) = elemLines xs ++ elemLines ys := by
  unfold elemLines
  exact List.filter_append xs ys

theorem flatElems_go_ne (L : List String) (h : String) (body : List String)
    (hh : h ≠ "") :
    flatElems (splitSectionsGo L h body) = elemLines body ++ elemLines L := by
  induction L generalizing h body with
  | nil =>
    simp only [splitSectionsGo, if_neg hh]
    simp [flatElems, elemLines]
  | cons l ls ih =>
    by_cases hl : jsStartsWith l "===" = true
    · simp only [splitSectionsGo, hl, if_true, if_neg hh]
      unfold flatElems
      rw [List.flatMap_append]
      have h1 : ([⟨h, body⟩] : List MapSection).flatMap (fun s => elemLines s.body)
          = elemLines body := by simp
      rw [h1]
      have h2 : (splitSectionsGo ls l []).flatMap (fun s => elemLines s.body)
          = flatElems (splitSectionsGo ls l []) := rfl
      rw [h2, ih l [] (jsStartsWith_header_ne_empty l hl)]
      rw [elemLines_cons, header_not_elementLine l hl]
      simp [elemLines]
    · simp only [splitSectionsGo, hl, Bool.false_eq_true, if_false]
      rw [ih h (body ++ [l]) hh, elemLines_append, elemLines_cons]
      cases hel : isElementLine l <;>
        simp [hel, elemLines, List.filter_cons, List.append_assoc]

theorem flatElems_go_start (L : List String) (body : List String)
    (hpre : ∀ l ∈ L.takeWhile (fun x => !jsStartsWith x "==="), isElementLine l = false) :
    flatElems (splitSectionsGo L "" body) = elemLines L := by
  induction L generalizing body with
  | nil => simp [splitSectionsGo, flatElems, elemLines]
  | cons l ls ih =>
    by_cases hl : jsStartsWith l "===" = true
    · simp only [splitSectionsGo, hl, if_true, if_pos rfl]
      simp only [List.nil_append]
      rw [flatElems_go_ne ls l [] (jsStartsWith_header_ne_empty l hl)]
      rw [elemLines_cons, header_not_elementLine l hl]
      simp [elemLines]
    · have hmem : l ∈ (l :: ls).takeWhile (fun x => !jsStartsWith x "===") := by
        rw [List.takeWhile_cons_of_pos (by simp [hl])]
        exact List.mem_cons_self l _
      have hle : isElementLine l = false := hpre l hmem
      simp only [splitSectionsGo, hl, Bool.false_eq_true, if_false]
      rw [ih (body ++ [l]) ?_]
      · rw [elemLines_cons, hle]
        simp
      · intro x hx
        apply hpre x
        rw [List.takeWhile_cons_of_pos (by simp [hl])]
        exact List.mem_cons_of_mem l hx

theorem sectionBody_sublines (L : List String) (h : String) (body : List String)
    (sec : MapSection) (hsec : sec ∈ splitSectionsGo L h body) (l : String)
    (hl : l ∈ sec.body) : l ∈ body ∨ l ∈ L := by
  induction L generalizing h body with
  | nil =>
    simp only [splitSectionsGo] at hsec
    split at hsec
    · exact absurd hsec (by simp)
    · rw [List.mem_singleton] at hsec
      subst hsec
      exact Or.inl hl
  | cons x ls ih =>
    simp only [splitSectionsGo] at hsec
    by_cases hx : jsStartsWith x "===" = true
    · rw [if_pos hx] at hsec
      rcases List.mem_append.mp hsec with hmem | hmem
      · split at hmem
        · exact absurd hmem (by simp)
        · rw [List.mem_singleton] at hmem
          subst hmem
          exact Or.inl hl
      · rcases ih x [] hmem with hnil | hls
        · exact absurd hnil (by simp)
        · exact Or.inr (List.mem_cons_of_mem x hls)
    · rw [if_neg hx] at hsec
      rcases ih h (body ++ [x]) hsec with hb | hls
      · rcases List.mem_append.mp hb with hb' | hb'
        · exact Or.inl hb'
        · rw [List.mem_singleton] at hb'
          subst hb'
          exact Or.inr (List.mem_cons_self l _)
      · exact Or.inr (List.mem_cons_of_mem x hls)

theorem elemLines_wf (L : List String) (hL : ∀ l ∈ L, '\n' ∉ l.data) :
    ∀ x ∈ elemLines L, x.data ≠ [] ∧ '\n' ∉ x.data := by
  intro x hx
  have hmem := List.mem_of_mem_filter hx
  have hel : isElementLine x = true := List.of_mem_filter hx
  exact ⟨isElementLine_ne_nil x hel, hL x hmem⟩

theorem flatMap_congr_mem {α β : Type} (ss : List α) (f g : α → List β)
    (h : ∀ s ∈ ss, f s = g s) : ss.flatMap f = ss.flatMap g := by
  induction ss with
  | nil => rfl
  | cons s ss ih =>
    simp only [List.flatMap_cons]
    rw [h s (List.mem_cons_self s ss), ih (fun x hx => h x (List.mem_cons_of_mem s hx))]

/-- C5: applying `computeMapDiff(A, B)` to `A` as a section-wise overlay —
replacing each section the diff reports changed by the replayed content and
keeping, for each section reported unchanged, the old section the differ
matched — reproduces `B`'s element lines exactly; and when `A` and `B` have
identical element lines the diff equals `[Page unchanged]`.  `A` is a
non-empty map and `B` carries no element lines before its first `===` header
(a visual map starts with its header line). -/
theorem computeMapDiff_overlay_faithful (A B : String) (hA : A ≠ "")
    (hpre : ∀ l ∈ (toLines B).takeWhile (fun x => !jsStartsWith x "==="),
      isElementLine l = false) :
    overlayElemLines A B = elemLines (toLines B) ∧
    (elemLines (toLines A) = elemLines (toLines B) →
      computeMapDiff A B = "[Page unchanged]") := by
  constructor
  · unfold overlayElemLines
    rw [if_neg hA]
    by_cases hquick : joinNL (elemLines (toLines A)) = joinNL (elemLines (toLines B))
    · rw [if_pos hquick]
      exact joinNL_inj _ _ (elemLines_wf _ (toLines_no_newline A))
        (elemLines_wf _ (toLines_no_newline B)) hquick
    · rw [if_neg hquick]
      have hflat : flatElems (splitSections (toLines B)) = elemLines (toLines B) :=
        flatElems_go_start _ [] hpre
      rw [← hflat]
      unfold flatElems
      apply flatMap_congr_mem
      intro ns hns
      cases hu : sectionUnchanged (splitSections (toLines A)) ns with
      | false => simp
      | true =>
        simp only [if_true]
        have hjoin : joinNL (oldSectionElems (splitSections (toLines A)) ns)
            = joinNL (elemLines ns.body) := of_decide_eq_true hu
        have hwfold : ∀ x ∈ oldSectionElems (splitSections (toLines A)) ns,
            x.data ≠ [] ∧ '\n' ∉ x.data := by
          unfold oldSectionElems
          cases hfind : findOldSection (splitSections (toLines A)) ns with
          | none => simp [elemLines]
          | some sec =>
            apply elemLines_wf
            intro l hlmem
            have hsecmem : sec ∈ splitSections (toLines A) := by
              unfold findOldSection at hfind
              split at hfind
              · exact List.mem_of_find?_eq_some hfind
              · exact List.mem_of_find?_eq_some hfind
            rcases sectionBody_sublines (toLines A) "" [] sec hsecmem l hlmem with hnil | hmem
            · exact absurd hnil (by simp)
            · exact toLines_no_newline A l hmem
        have hwfnew : ∀ x ∈ elemLines ns.body, x.data ≠ [] ∧ '\n' ∉ x.data := by
          apply elemLines_wf
          intro l hlmem
          rcases sectionBody_sublines (toLines B) "" [] ns hns l hlmem with hnil | hmem
          · exact absurd hnil (by simp)
          · exact toLines_no_newline B l hmem
        exact joinNL_inj _ _ hwfold hwfnew hjoin
  · intro heq
    have hjoin : joinNL (elemLines (toLines A)) = joinNL (elemLines (toLines B)) := by
      rw [heq]
    simp [computeMapDiff, if_neg hA, hjoin]

/-- Witness for `computeMapDiff_overlay_faithful`: a two-section map whose
iframe content changed, and an identical pair of maps. -/
theorem computeMapDiff_overlay_faithful_witness :
    (overlayElemLines
        "=== VISUAL PAGE MAP ===\n[*BUTTON] sel=\"#b\" \"Go\"\n=== IFRAME CONTENT (frameId=7) ===\n[P] \"old\""
        "=== VISUAL PAGE MAP ===\n[*BUTTON] sel=\"#b\" \"Go\"\n=== IFRAME CONTENT (frameId=7) ===\n[P] \"new\""
      = elemLines (toLines
        "=== VISUAL PAGE MAP ===\n[*BUTTON] sel=\"#b\" \"Go\"\n=== IFRAME CONTENT (frameId=7) ===\n[P] \"new\"")) ∧
    (computeMapDiff
        "=== VISUAL PAGE MAP ===\n[DIV] \"x\""
        "=== VISUAL PAGE MAP ===\n[DIV] \"x\""
      = "[Page unchanged]") :=
  ⟨(computeMapDiff_overlay_faithful _ _ (by decide) (by decide)).1,
   (computeMapDiff_overlay_faithful
      "=== VISUAL PAGE MAP ===\n[DIV] \"x\""
      "=== VISUAL PAGE MAP ===\n[DIV] \"x\"" (by decide) (by decide)).2 rfl⟩

/-! ## Stable question key (`extractQuestionKey`, background.js)

`extractQuestionKey` matches `/\b(\d+) of (\d+) Items?\b/i` against the whole
visual map and, on a hit, derives the key `item:N/M` from the first match;
otherwise it falls back to 80 characters from the `=== IFRAME CONTENT`
marker.  The regex is embedded as a left-to-right scanner: at each position
whose preceding character is not a word character (`\b`), try the literal
pattern with greedy digit runs and case-insensitive letters, with a trailing
word-boundary check. -/

/-- JS regex `\w`: ASCII letters, digits, underscore. -/
def isWordChar (c : Char) : Bool :=
  c.isAlphanum || c = '_'

/-- Case-insensitive literal match: strip `pat` from the head of the input,
comparing lower-cased characters. -/
def stripCI : List Char → List Char → Option (List Char)
  | [], cs => some cs
  | _ :: _, [] => none
  | p :: ps, c :: cs => if c.toLower = p.toLower then stripCI ps cs else none

/-- Trailing part of the item pattern after ` Item`: an optional
(case-insensitive) `s`, then the `\b` word-boundary check against whatever
follows. -/
def tailBoundary (rest : List Char) : Bool :=
  match rest with
  | [] => true
  | c :: rest5 =>
    if c.toLower = 's' then
      match rest5 with
      | [] => true
      | c2 :: _ => !isWordChar c2
    else !isWordChar c

/-- Attempt of `/(\d+) of (\d+) Items?\b/i` at the current position: greedy
digit run, literal ` of `, digit run, literal ` Item`, optional `s`, then a
word-boundary check against the following character. -/
def matchItemAt (cs : List Char) : Option (String × String) :=
  let d1 := cs.takeWhile Char.isDigit
  if d1.isEmpty then none
  else
    match stripCI " of ".data (cs.drop d1.length) with
    | none => none
    | some rest2 =>
      let d2 := rest2.takeWhile Char.isDigit
      if d2.isEmpty then none
      else
        match stripCI " item".data (rest2.drop d2.length) with
        | none => none
        | some rest4 =>
          if tailBoundary rest4 then some (⟨d1⟩, ⟨d2⟩) else none

/-- Is a match allowed to start after this character (`\b` before `\d`)? -/
def prevAllowed : Option Char → Bool
  | none => true
  | some p => !isWordChar p

/-- Left-to-right scan for the first match of the item pattern, carrying the
previous character for the leading word-boundary test. -/
def findItemMatch : Option Char → List Char → Option (String × String)
  | _, [] => none
  | prev, c :: rest =>
    if prevAllowed prev then
      match matchItemAt (c :: rest) with
      | some r => some r
      | none => findItemMatch (some c) rest
    else findItemMatch (some c) rest

/-- Model of JS `indexOf` for a pattern (first index of an occurrence). -/
def firstInfixIdx (pat : List Char) : List Char → Option Nat
  | [] => if pat.isPrefixOf [] then some 0 else none
  | c :: cs =>
    if pat.isPrefixOf (c :: cs) then some 0
    else (firstInfixIdx pat cs).map (· + 1)

/-- Embedding of `extractQuestionKey(visualMap)` (background.js). -/
def extractQuestionKey (visualMap : String) : Option String :=
  if visualMap = "" then none
  else
    match findItemMatch none visualMap.data with
    | some (d1, d2) => some ("item:" ++ d1 ++ "/" ++ d2)
    | none =>
      match firstInfixIdx ("=== IFRAME CONTENT".data) visualMap.data with
      | some idx => some ⟨(visualMap.data.drop idx).take 80⟩
      | none => none

/-- Draggable tile element lines carry the `[draggable]` flag in the visual
map grammar. -/
def isTileLine (l : String) : Bool :=
  jsIncludes l "[draggable]"

/-- First item-pattern match over a list of lines. -/
def firstLineItem : List String → Option (String × String)
  | [] => none
  | l :: ls =>
    match findItemMatch none l.data with
    | some r => some r
    | none => firstLineItem ls

/-! ### The item match of a joined map is the first per-line match -/

theorem takeWhile_append_stop (p : Char → Bool) (xs : List Char) (y : Char)
    (t : List Char) (hy : p y = false) :
    (xs ++ y :: t).takeWhile p = xs.takeWhile p := by
  induction xs with
  | nil => simp [List.takeWhile_cons, hy]
  | cons x xs ih =>
    simp only [List.cons_append, List.takeWhile_cons]
    split <;> simp [ih]

theorem length_takeWhile_le (p : Char → Bool) (xs : List Char) :
    (xs.takeWhile p).length ≤ xs.length := by
  induction xs with
  | nil => simp
  | cons x xs ih =>
    rw [List.takeWhile_cons]
    split <;> simp <;> omega

theorem drop_append_le (n : Nat) (xs t : List Char) (hn : n ≤ xs.length) :
    (xs ++ t).drop n = xs.drop n ++ t := by
  induction xs generalizing n with
  | nil =>
    have : n = 0 := by simpa using hn
    simp [this]
  | cons x xs ih =>
    cases n with
    | zero => simp
    | succ m => simpa using ih m (by simpa using hn)

theorem not_mem_drop_of_not_mem (c : Char) (n : Nat) (xs : List Char)
    (h : c ∉ xs) : c ∉ xs.drop n := by
  intro hmem
  exact h (List.mem_of_mem_drop hmem)

theorem stripCI_some_subset (pat : List Char) (cs r : List Char)
    (h : stripCI pat cs = some r) : ∀ x ∈ r, x ∈ cs := by
  induction pat generalizing cs with
  | nil =>
    simp only [stripCI, Option.some.injEq] at h
    subst h
    exact fun x hx => hx
  | cons p ps ih =>
    cases cs with
    | nil => exact absurd h (by simp [stripCI])
    | cons c cs' =>
      simp only [stripCI] at h
      split at h
      · exact fun x hx => List.mem_cons_of_mem c (ih cs' h x hx)
      · exact absurd h (by simp)

theorem stripCI_append_newline (pat : List Char) (xs t : List Char)
    (hpat : ∀ p ∈ pat, p.toLower ≠ '\n') (hxs : '\n' ∉ xs) :
    stripCI pat (xs ++ '\n' :: t) = (stripCI pat xs).map (· ++ '\n' :: t) := by
  induction pat generalizing xs with
  | nil => simp [stripCI]
  | cons p ps ih =>
    cases xs with
    | nil =>
      simp only [List.nil_append, stripCI]
      rw [if_neg]
      · rfl
      · show ¬Char.toLower '\n' = p.toLower
        intro hcol
        exact hpat p (List.mem_cons_self p ps) (by rw [← hcol]; rfl)
    | cons c xs' =>
      simp only [List.cons_append, stripCI]
      split
      · exact ih xs' (fun q hq => hpat q (List.mem_cons_of_mem p hq))
          (fun hm => hxs (List.mem_cons_of_mem c hm))
      · rfl

theorem tailBoundary_append_newline (rest t : List Char) :
    tailBoundary (rest ++ '\n' :: t) = tailBoundary rest := by
  cases rest with
  | nil =>
    show tailBoundary ('\n' :: t) = true
    simp [tailBoundary, isWordChar]
  | cons c rest5 =>
    simp only [List.cons_append, tailBoundary]
    split
    · cases rest5 with
      | nil => simp [isWordChar]
      | cons c2 r => rfl
    · rfl

theorem matchItemAt_append_newline (xs t : List Char) (hxs : '\n' ∉ xs) :
    matchItemAt (xs ++ '\n' :: t) = matchItemAt xs := by
  unfold matchItemAt
  rw [takeWhile_append_stop Char.isDigit xs '\n' t (by decide)]
  by_cases he : (xs.takeWhile Char.isDigit).isEmpty = true
  · simp [he]
  · simp only [he, Bool.false_eq_true, if_false]
    rw [drop_append_le _ xs _ (length_takeWhile_le _ xs)]
    rw [stripCI_append_newline _ _ _ (by decide)
      (not_mem_drop_of_not_mem '\n' _ xs hxs)]
    cases hof : stripCI " of ".data (xs.drop (xs.takeWhile Char.isDigit).length) with
    | none => rfl
    | some rest2 =>
      simp only [Option.map_some']
      have hrest2 : '\n' ∉ rest2 := by
        intro hm
        exact not_mem_drop_of_not_mem '\n' _ xs hxs
          (stripCI_some_subset _ _ _ hof '\n' hm)
      rw [takeWhile_append_stop Char.isDigit rest2 '\n' t (by decide)]
      by_cases he2 : (rest2.takeWhile Char.isDigit).isEmpty = true
      · simp [he2]
      · simp only [he2, Bool.false_eq_true, if_false]
        rw [drop_append_le _ rest2 _ (length_takeWhile_le _ rest2)]
        rw [stripCI_append_newline _ _ _ (by decide)
          (not_mem_drop_of_not_mem '\n' _ rest2 hrest2)]
        cases hit : stripCI " item".data (rest2.drop (rest2.takeWhile Char.isDigit).length) with
        | none => rfl
        | some rest4 =>
          simp only [Option.map_some']
          rw [tailBoundary_append_newline]

theorem matchItemAt_newline_head (t : List Char) : matchItemAt ('\n' :: t) = none := by
  unfold matchItemAt
  rw [List.takeWhile_cons_of_neg (by decide)]
  simp

theorem findItemMatch_prevAllowed (p1 p2 : Option Char) (cs : List Char)
    (h : prevAllowed p1 = prevAllowed p2) :
    findItemMatch p1 cs = findItemMatch p2 cs := by
  cases cs with
  | nil => rfl
  | cons c rest => simp only [findItemMatch, h]

theorem findItemMatch_append_newline (xs t : List Char) (hxs : '\n' ∉ xs)
    (prev : Option Char) :
    findItemMatch prev (xs ++ '\n' :: t) =
      match findItemMatch prev xs with
      | some r => some r
      | none => findItemMatch (some '\n') t := by
  induction xs generalizing prev with
  | nil =>
    show findItemMatch prev ('\n' :: t) = _
    simp only [findItemMatch, matchItemAt_newline_head]
    split <;> rfl
  | cons c xs' ih =>
    have hxs' : '\n' ∉ xs' := fun hm => hxs (List.mem_cons_of_mem c hm)
    show findItemMatch prev ((c :: (xs' ++ '\n' :: t))) = _
    simp only [findItemMatch]
    rw [show c :: (xs' ++ '\n' :: t) = (c :: xs') ++ '\n' :: t from rfl,
      matchItemAt_append_newline (c :: xs') t hxs]
    split
    · cases hma : matchItemAt (c :: xs') with
      | none => exact ih hxs' (some c)
      | some r => rfl
    · exact ih hxs' (some c)

theorem findItemMatch_joinNL (L : List String)
    (hwf : ∀ l ∈ L, '\n' ∉ l.data) (prev : Option Char)
    (hp : prevAllowed prev = true) :
    findItemMatch prev (joinNL L).data = firstLineItem L := by
  induction L generalizing prev with
  | nil => rfl
  | cons l ls ih =>
    cases ls with
    | nil =>
      show findItemMatch prev l.data = _
      rw [findItemMatch_prevAllowed prev none l.data (by rw [hp]; rfl)]
      simp only [firstLineItem]
      cases findItemMatch none l.data <;> rfl
    | cons l2 ls' =>
      have hd := joinNL_data_cons l (l2 :: ls') (by simp)
      rw [hd, findItemMatch_append_newline l.data _ (hwf l (List.mem_cons_self l _)) prev]
      rw [findItemMatch_prevAllowed prev none l.data (by rw [hp]; rfl)]
      simp only [firstLineItem]
      cases findItemMatch none l.data with
      | some r => rfl
      | none =>
        exact ih (fun x hx => hwf x (List.mem_cons_of_mem l hx)) (some '\n') (by decide)

theorem firstLineItem_filter_tiles (L : List String)
    (htile : ∀ l ∈ L, isTileLine l = true → findItemMatch none l.data = none) :
    firstLineItem L = firstLineItem (L.filter (fun l => !isTileLine l)) := by
  induction L with
  | nil => rfl
  | cons l ls ih =>
    have ihtail := ih (fun x hx hxt => htile x (List.mem_cons_of_mem l hx) hxt)
    by_cases ht : isTileLine l = true
    · have hnone := htile l (List.mem_cons_self l ls) ht
      simp only [firstLineItem, hnone]
      rw [List.filter_cons]
      simp only [ht, Bool.not_true, Bool.false_eq_true, if_false]
      exact ihtail
    · have ht' : isTileLine l = false := by
        cases hx : isTileLine l
        · rfl
        · exact absurd hx ht
      rw [List.filter_cons]
      simp only [ht', Bool.not_false, if_true]
      simp only [firstLineItem]
      cases findItemMatch none l.data with
      | some r => rfl
      | none => exact ihtail

theorem firstLineItem_ne_none_of_mem (L : List String) (l : String) (hl : l ∈ L)
    (h : findItemMatch none l.data ≠ none) : firstLineItem L ≠ none := by
  induction L with
  | nil => exact absurd hl (by simp)
  | cons x ls ih =>
    simp only [firstLineItem]
    cases hx : findItemMatch none x.data with
    | some r => simp
    | none =>
      rcases List.mem_cons.mp hl with hhead | htail
      · subst hhead
        exact absurd hx h
      · exact ih htail

theorem joinNL_ne_empty_of_item (L : List String) (h : firstLineItem L ≠ none) :
    joinNL L ≠ "" := by
  cases L with
  | nil => exact absurd rfl h
  | cons x ls =>
    cases ls with
    | nil =>
      intro hx
      have : x = "" := hx
      subst this
      exact h rfl
    | cons y ls' =>
      intro hx
      have hd := congrArg String.data hx
      rw [joinNL_data_cons x (y :: ls') (by simp)] at hd
      exact absurd hd (by simp)

/-- C9: for visual maps presented as joined line lists, the question key is
stable under any rearrangement, removal or insertion of draggable tile lines
(`[draggable]`): when the non-tile lines are preserved in order, no tile line
contains the `N of M Items` pattern, and some line contains it, both maps
yield the same key, of the form `item:N/M`. -/
theorem extractQuestionKey_stable (L L' : List String)
    (hwf : ∀ l ∈ L, '\n' ∉ l.data) (hwf' : ∀ l ∈ L', '\n' ∉ l.data)
    (hsame : L.filter (fun l => !isTileLine l) = L'.filter (fun l => !isTileLine l))
    (htile : ∀ l ∈ L, isTileLine l = true → findItemMatch none l.data = none)
    (htile' : ∀ l ∈ L', isTileLine l = true → findItemMatch none l.data = none)
    (hmatch : ∃ l ∈ L, findItemMatch none l.data ≠ none) :
    extractQuestionKey (joinNL L) = extractQuestionKey (joinNL L') ∧
    ∃ d1 d2, extractQuestionKey (joinNL L) = some ("item:" ++ d1 ++ "/" ++ d2) := by
  have h1 : firstLineItem L = firstLineItem L' := by
    rw [firstLineItem_filter_tiles L htile, hsame, ← firstLineItem_filter_tiles L' htile']
  obtain ⟨l, hlmem, hlmatch⟩ := hmatch
  have hsomeL : firstLineItem L ≠ none := firstLineItem_ne_none_of_mem L l hlmem hlmatch
  obtain ⟨r, hr⟩ : ∃ r, firstLineItem L = some r := by
    cases hfl : firstLineItem L with
    | none => exact absurd hfl hsomeL
    | some r => exact ⟨r, rfl⟩
  have hneL : joinNL L ≠ "" := joinNL_ne_empty_of_item L hsomeL
  have hneL' : joinNL L' ≠ "" := joinNL_ne_empty_of_item L' (by rw [← h1]; exact hsomeL)
  unfold extractQuestionKey
  rw [if_neg hneL, if_neg hneL']
  rw [findItemMatch_joinNL L hwf none rfl, findItemMatch_joinNL L' hwf' none rfl]
  rw [hr, ← h1, hr]
  obtain ⟨d1, d2⟩ := r
  exact ⟨rfl, d1, d2, rfl⟩

/-- Witness for `extractQuestionKey_stable`: removing one draggable tile and
keeping the `3 of 5 Items` counter leaves the key unchanged. -/
theorem extractQuestionKey_stable_witness :
    extractQuestionKey (joinNL
      ["=== IFRAME CONTENT (frameId=7) ===", "[DIV] \"3 of 5 Items\"",
       "[*DIV] sel=\"#t1\" \"alpha\" [draggable]", "[*DIV] sel=\"#t2\" \"beta\" [draggable]"])
      = extractQuestionKey (joinNL
      ["=== IFRAME CONTENT (frameId=7) ===", "[DIV] \"3 of 5 Items\"",
       "[*DIV] sel=\"#t2\" \"beta\" [draggable]"]) :=
  (extractQuestionKey_stable
    ["=== IFRAME CONTENT (frameId=7) ===", "[DIV] \"3 of 5 Items\"",
     "[*DIV] sel=\"#t1\" \"alpha\" [draggable]", "[*DIV] sel=\"#t2\" \"beta\" [draggable]"]
    ["=== IFRAME CONTENT (frameId=7) ===", "[DIV] \"3 of 5 Items\"",
     "[*DIV] sel=\"#t2\" \"beta\" [draggable]"]
    (by decide) (by decide) (by decide) (by decide) (by decide) (by decide)).1

/-! ## JSON parsing and response recovery (`AIClient._parseResponse`, ai-client.js)

`JSON.parse` is modeled by a fueled recursive-descent parser over the JSON
grammar (value, object, array, string with escapes, number, literals), strict
about full consumption modulo surrounding JSON whitespace.  Numbers keep
their lexeme.  The two recovery regexes are modeled by explicit scanners
with the backtracking semantics of the JS engine: the `actions` regex starts
at the first `{` from which a completion exists, its greedy `[\s\S]*` picks
the last feasible `"actions"` occurrence, and its lazy parts pick the first
following `]` and `}`; the any-object regex spans the first `{` to the last
`}`. -/

/-- JSON whitespace (`JSON.parse`): space, tab, line feed, carriage return. -/
def isJsonWs (c : Char) : Bool :=
  c = ' ' || c = '\t' || c = '\n' || c = '\r'

/-- Single-character JSON string escapes. -/
def escChar : Char → Option Char
  | '"' => some '"'
  | '\\' => some '\\'
  | '/' => some '/'
  | 'b' => some '\x08'
  | 'f' => some '\x0c'
  | 'n' => some '\n'
  | 'r' => some '\r'
  | 't' => some '\t'
  | _ => none

def isHexDigit (c : Char) : Bool :=
  c.isDigit || ('a' ≤ c.toLower && c.toLower ≤ 'f')

def hexDigitVal (c : Char) : Nat :=
  if c.isDigit then c.toNat - 48
  else c.toLower.toNat - 97 + 10

/-- Body of a JSON string after the opening quote: decoded characters and
the remainder after the closing quote.  Raw control characters are
rejected, as `JSON.parse` does. -/
def parseStringBody : List Char → Option (List Char × List Char)
  | [] => none
  | '"' :: rest => some ([], rest)
  | '\\' :: 'u' :: h1 :: h2 :: h3 :: h4 :: rest =>
    if isHexDigit h1 && isHexDigit h2 && isHexDigit h3 && isHexDigit h4 then
      (parseStringBody rest).map (fun p =>
        (Char.ofNat (((hexDigitVal h1 * 16 + hexDigitVal h2) * 16 + hexDigitVal h3) * 16
          + hexDigitVal h4) :: p.1, p.2))
    else none
  | '\\' :: e :: rest =>
    match escChar e with
    | some c => (parseStringBody rest).map (fun p => (c :: p.1, p.2))
    | none => none
  | c :: rest =>
    if c.toNat < 32 then none
    else (parseStringBody rest).map (fun p => (c :: p.1, p.2))

/-- JSON number grammar: `-? (0 | [1-9][0-9]*) (. [0-9]+)? ([eE][+-]?[0-9]+)?`,
returning the lexeme and the remainder. -/
def parseNumIntPart : List Char → Option (List Char × List Char)
  | '0' :: r => some (['0'], r)
  | c :: r =>
    if c.isDigit then
      let ds := r.takeWhile Char.isDigit
      some (c :: ds, r.drop ds.length)
    else none
  | [] => none

def parseNumFrac (cs : List Char) : Option (List Char × List Char) :=
  match cs with
  | '.' :: r =>
    let ds := r.takeWhile Char.isDigit
    if ds.isEmpty then none else some ('.' :: ds, r.drop ds.length)
  | _ => some ([], cs)

def parseNumExp (cs : List Char) : Option (List Char × List Char) :=
  match cs with
  | c :: r =>
    if c = 'e' || c = 'E' then
      let (sgn, r1) : List Char × List Char :=
        match r with
        | '+' :: r' => (['+'], r')
        | '-' :: r' => (['-'], r')
        | _ => ([], r)
      let ds := r1.takeWhile Char.isDigit
      if ds.isEmpty then none else some (c :: (sgn ++ ds), r1.drop ds.length)
    else some ([], cs)
  | [] => some ([], [])

def parseNumber (cs : List Char) : Option (List Char × List Char) :=
  let (sgn, cs1) : List Char × List Char :=
    match cs with
    | '-' :: r => (['-'], r)
    | _ => ([], cs)
  match parseNumIntPart cs1 with
  | none => none
  | some (ip, r1) =>
    match parseNumFrac r1 with
    | none => none
    | some (fp, r2) =>
      match parseNumExp r2 with
      | none => none
      | some (ep, r3) => some (sgn ++ ip ++ fp ++ ep, r3)

/-- Array elements after the opening bracket (first element expected),
parameterized by the value parser for the current nesting level. -/
def parseElemsWith (pv : List Char → Option (Json × List Char)) :
    Nat → List Char → Option (List Json × List Char)
  | 0, _ => none
  | fuel + 1, cs =>
    match pv cs with
    | none => none
    | some (v, r) =>
      match r.dropWhile isJsonWs with
      | ',' :: r2 =>
        (parseElemsWith pv fuel (r2.dropWhile isJsonWs)).map (fun p => (v :: p.1, p.2))
      | ']' :: r2 => some ([v], r2)
      | _ => none

/-- Object members after the opening brace (first member expected). -/
def parseMembersWith (pv : List Char → Option (Json × List Char)) :
    Nat → List Char → Option (List (String × Json) × List Char)
  | 0, _ => none
  | fuel + 1, cs =>
    match cs with
    | '"' :: r =>
      match parseStringBody r with
      | none => none
      | some (k, r1) =>
        match r1.dropWhile isJsonWs with
        | ':' :: r2 =>
          match pv (r2.dropWhile isJsonWs) with
          | none => none
          | some (v, r3) =>
            match r3.dropWhile isJsonWs with
            | ',' :: r4 =>
              (parseMembersWith pv fuel (r4.dropWhile isJsonWs)).map
                (fun p => ((String.mk k, v) :: p.1, p.2))
            | '}' :: r4 => some ([(String.mk k, v)], r4)
            | _ => none
        | _ => none
    | _ => none

/-- JSON value parser (fueled; the fuel is sized to the input at the top
call, each nesting level consumes at least one character). -/
def parseValue : Nat → List Char → Option (Json × List Char)
  | 0, _ => none
  | fuel + 1, cs =>
    match cs with
    | 'n' :: 'u' :: 'l' :: 'l' :: r => some (Json.null, r)
    | 't' :: 'r' :: 'u' :: 'e' :: r => some (Json.bool true, r)
    | 'f' :: 'a' :: 'l' :: 's' :: 'e' :: r => some (Json.bool false, r)
    | '"' :: r => (parseStringBody r).map (fun p => (Json.str (String.mk p.1), p.2))
    | '[' :: r =>
      match r.dropWhile isJsonWs with
      | ']' :: r2 => some (Json.arr [], r2)
      | r1 => (parseElemsWith (parseValue fuel) fuel r1).map (fun p => (Json.arr p.1, p.2))
    | '{' :: r =>
      match r.dropWhile isJsonWs with
      | '}' :: r2 => some (Json.obj [], r2)
      | r1 => (parseMembersWith (parseValue fuel) fuel r1).map (fun p => (Json.obj p.1, p.2))
    | _ => (parseNumber cs).map (fun p => (Json.num (String.mk p.1), p.2))

/-- Model of `JSON.parse`: whole input, surrounding whitespace allowed. -/
def jsonParse (s : String) : Option Json :=
  match parseValue (s.data.length + 1) (s.data.dropWhile isJsonWs) with
  | some (v, rest) => if (rest.dropWhile isJsonWs).isEmpty then some v else none
  | none => none

/-- Does the parsed value have an `actions` array (`Array.isArray(parsed.actions)`)? -/
def hasActionsArray (v : Json) : Bool :=
  match objGet v "actions" with
  | some (Json.arr _) => true
  | _ => false

/-! ### The two recovery regexes of `_parseResponse` -/

/-- Case-sensitive literal strip. -/
def stripLit : List Char → List Char → Option (List Char)
  | [], cs => some cs
  | _ :: _, [] => none
  | p :: ps, c :: cs => if c = p then stripLit ps cs else none

def firstIdxOf (c : Char) : List Char → Option Nat
  | [] => none
  | x :: xs => if x = c then some 0 else (firstIdxOf c xs).map (· + 1)

def lastIdxOf (c : Char) : List Char → Option Nat
  | [] => none
  | x :: xs =>
    match lastIdxOf c xs with
    | some j => some (j + 1)
    | none => if x = c then some 0 else none

/-- Continuation `"actions"\s*:\s*\[[\s\S]*?\][\s\S]*?\}` at the current
position: the literal key, whitespace, colon, whitespace, opening bracket,
then the lazy parts take the first `]` and the first `}` after it.  Returns
the number of characters consumed. -/
def matchActionsAt (cs : List Char) : Option Nat :=
  match stripLit ("\"actions\"".data) cs with
  | none => none
  | some r1 =>
    match r1.dropWhile isJsWs with
    | ':' :: r3 =>
      match r3.dropWhile isJsWs with
      | '[' :: r5 =>
        match firstIdxOf ']' r5 with
        | none => none
        | some i =>
          match firstIdxOf '}' (r5.drop (i + 1)) with
          | none => none
          | some j => some (cs.length - ((r5.drop (i + 1)).drop (j + 1)).length)
      | _ => none
    | _ => none

/-- End offset (exclusive) of the match whose `"actions"` occurrence is the
last feasible one — the choice of the greedy `[\s\S]*`. -/
def lastActionsEnd : List Char → Option Nat
  | [] => none
  | c :: rest =>
    match lastActionsEnd rest with
    | some e => some (1 + e)
    | none => matchActionsAt (c :: rest)

/-- Model of `cleaned.match(/\{[\s\S]*"actions"\s*:\s*\[[\s\S]*?\][\s\S]*?\}/)`:
the match starts at the first `{` from which the continuation can complete. -/
def actionsSpan : List Char → Option (List Char)
  | [] => none
  | c :: rest =>
    if c = '{' then
      match lastActionsEnd rest with
      | some e => some ('{' :: rest.take e)
      | none => actionsSpan rest
    else actionsSpan rest

/-- Model of `cleaned.match(/\{[\s\S]*\}/)`: first `{` with a later `}`,
greedy to the last `}`. -/
def braceSpan : List Char → Option (List Char)
  | [] => none
  | c :: rest =>
    if c = '{' then
      match lastIdxOf '}' rest with
      | some j => some ('{' :: rest.take (j + 1))
      | none => braceSpan rest
    else braceSpan rest

/-! ### `_parseResponse` itself -/

/-- Leading-fence strip, the replace of `/^```(?:json)?\s*\n?/` on a string
known to start with three backticks: drop the backticks, an optional `json`,
and all following whitespace (the greedy `\s*` subsumes the optional
newline). -/
def stripLeadFence (s : String) : String :=
  let r1 := s.data.drop 3
  let r2 := if ("json".data).isPrefixOf r1 then r1.drop 4 else r1
  ⟨r2.dropWhile isJsWs⟩

/-- Trailing-fence strip, the replace of `/\n?```\s*$/`: from the end, drop
whitespace, three backticks, and one optional newline; no change when that
suffix shape is absent. -/
def stripTrailFence (s : String) : String :=
  match (s.data.reverse.dropWhile isJsWs) with
  | '`' :: '`' :: '`' :: r2 =>
    match r2 with
    | '\n' :: r3 => ⟨r3.reverse⟩
    | _ => ⟨r2.reverse⟩
  | _ => s

/-- The `cleaned` string of `_parseResponse`: trim, then strip markdown code
fences when present. -/
def fenceStripped (responseText : String) : String :=
  let cleaned := jsTrim responseText
  if jsStartsWith cleaned "```" then stripTrailFence (stripLeadFence cleaned) else cleaned

/-- The neutral fallback decision of `_parseResponse`. -/
def neutralDecision (responseText : String) : Json :=
  Json.obj [("thinking", Json.str "Model returned prose instead of JSON — will retry"),
    ("actions", Json.arr []),
    ("summary", Json.str (jsSubstring responseText 0 200)),
    ("done", Json.bool false)]

/-- Third stage of `_parseResponse`: any brace-to-brace substring, then the
neutral decision. -/
def parseResponseStage3 (cleaned responseText : String) : Json :=
  match braceSpan cleaned.data with
  | some span =>
    match jsonParse (String.mk span) with
    | some v => if hasActionsArray v then v else neutralDecision responseText
    | none => neutralDecision responseText
  | none => neutralDecision responseText

/-- Second stage of `_parseResponse`: the `actions` regex substring, then
stage three. -/
def parseResponseStage2 (cleaned responseText : String) : Json :=
  match actionsSpan cleaned.data with
  | some span =>
    match jsonParse (String.mk span) with
    | some v => if hasActionsArray v then v else parseResponseStage3 cleaned responseText
    | none => parseResponseStage3 cleaned responseText
  | none => parseResponseStage3 cleaned responseText

/-- Embedding of `AIClient._parseResponse` (ai-client.js). -/
def parseResponse (responseText : String) : Json :=
  let cleaned := fenceStripped responseText
  match jsonParse cleaned with
  | some v => if hasActionsArray v then v else parseResponseStage2 cleaned responseText
  | none => parseResponseStage2 cleaned responseText

theorem parseResponseStage3_spec (c s : String) :
    hasActionsArray (parseResponseStage3 c s) = true ∨
    parseResponseStage3 c s = neutralDecision s := by
  unfold parseResponseStage3
  split
  · split
    · split
      · left; assumption
      · right; rfl
    · right; rfl
  · right; rfl

theorem parseResponseStage2_spec (c s : String) :
    hasActionsArray (parseResponseStage2 c s) = true ∨
    parseResponseStage2 c s = neutralDecision s := by
  unfold parseResponseStage2
  split
  · split
    · split
      · left; assumption
      · exact parseResponseStage3_spec c s
    · exact parseResponseStage3_spec c s
  · exact parseResponseStage3_spec c s

/-- C6 (amended): when the response string, after markdown fence stripping,
parses in its entirety as a JSON value carrying an `actions` array,
`_parseResponse` returns exactly that value; and on every input the parser
returns, without throwing, either a recovered value carrying an `actions`
array or the neutral decision (whose `actions` array is empty) so the loop
can retry. -/
theorem parseResponse_spec (s : String) :
    (∀ v, jsonParse (fenceStripped s) = some v → hasActionsArray v = true →
      parseResponse s = v) ∧
    (hasActionsArray (parseResponse s) = true ∨ parseResponse s = neutralDecision s) := by
  constructor
  · intro v hv hact
    simp only [parseResponse, hv, hact, if_true]
  · simp only [parseResponse]
    cases hj : jsonParse (fenceStripped s) with
    | some v =>
      cases hact : hasActionsArray v with
      | true =>
        left
        simp [hact]
      | false =>
        simp only [hact, Bool.false_eq_true, if_false]
        exact parseResponseStage2_spec _ s
    | none => exact parseResponseStage2_spec _ s

/-- Witness for `parseResponse_spec`: the fenced JSON of scenario S5 parses
to its exact decision object. -/
theorem parseResponse_spec_witness :
    parseResponse "```json\n\x7b\"thinking\":\"x\",\"actions\":[\x7b\"type\":\"click\",\"selector\":\"#a\"\x7d],\"done\":false\x7d\n```"
      = Json.obj [("thinking", Json.str "x"),
          ("actions", Json.arr [Json.obj [("type", Json.str "click"), ("selector", Json.str "#a")]]),
          ("done", Json.bool false)] :=
  (parseResponse_spec _).1 _ rfl rfl

/-- C6 counterexample: a response containing the valid JSON object
`{"actions":[]}` (as a substring, surrounded by stray braces), on which all
three parses fail and `_parseResponse` returns the neutral decision instead
of extracting that object. -/
theorem parseResponse_counterexample :
    ("junk \x7b\"a\":1\x7d mid \x7b\"actions\":[]\x7d tail" : String)
      = "junk \x7b\"a\":1\x7d mid " ++ "\x7b\"actions\":[]\x7d" ++ " tail" ∧
    jsonParse "\x7b\"actions\":[]\x7d" = some (Json.obj [("actions", Json.arr [])]) ∧
    hasActionsArray (Json.obj [("actions", Json.arr [])]) = true ∧
    parseResponse "junk \x7b\"a\":1\x7d mid \x7b\"actions\":[]\x7d tail"
      = neutralDecision "junk \x7b\"a\":1\x7d mid \x7b\"actions\":[]\x7d tail" ∧
    neutralDecision "junk \x7b\"a\":1\x7d mid \x7b\"actions\":[]\x7d tail"
      ≠ Json.obj [("actions", Json.arr [])] := by
  refine ⟨rfl, rfl, rfl, rfl, ?_⟩
  intro h
  simp [neutralDecision] at h

end ChromeController
